import Mathlib

/-
Verification development for the MARlea engine (Rust CRN simulator).

Shallow embedding conventions:
* `u64` counts, coefficients and rates become `Nat`; where the Rust code
  performs u64 arithmetic that may wrap (release-mode `-=` / `+=` on
  `Count`), we use explicit wrapping arithmetic modulo `2 ^ 64`
  (`wadd` / `wsub`).  The u128 rate sum in `sum_possible_reaction_rates`
  cannot overflow for any representable reaction set, so it is a plain sum.
* `HashMap<Name, Count>` (src/src/trial/reaction_network/solution/mod.rs)
  becomes an association list `List (Name × Nat)`; `entry().and_modify`
  becomes a key-preserving map that rewrites the entries holding the key
  and never inserts.
* `BTreeSet<Reaction>` iteration order is the set's deterministic order;
  we model the sets as lists and the deterministic order as the list order.
* `StdRng` becomes an abstract stream of raw draws `rng : Nat → Nat`
  together with a cursor `rngIdx`; `gen_range(0..w)` becomes
  `rng rngIdx % w` (a uniform integer in `[0, w)`), and each `react()`
  consumes exactly one draw, so the cursor counts `react()` calls.
* Fallible code (Rust panics: `gen_range` on an empty range, `.unwrap()`
  on the selection result) returns `Option`.
* `f64` averages are modelled as exact rationals `ℚ`; none of the claims
  settled here depends on floating-point rounding.
-/

namespace Marlea

/-- Name of a species: tuple struct around a string (solution/mod.rs). -/
abbrev Name := String

/-- Modulus of u64 arithmetic, the numeral for 2 ^ 64. -/
def UMAX : Nat := 18446744073709551616

/-- Wrapping u64 addition: release-mode `+=` on a `Count`. -/
def wadd (a b : Nat) : Nat := (a + b) % UMAX

/-- Wrapping u64 subtraction: release-mode `-=` on a `Count`. -/
def wsub (a b : Nat) : Nat := (a + (UMAX - b % UMAX)) % UMAX

/-- Term of a reaction: species name plus coefficient (reaction/term/mod.rs). -/
structure Term where
  species_name : Name
  coefficient : Nat
deriving DecidableEq, Repr

/-- Reaction: reactant terms, product terms and a rate weight (reaction/mod.rs). -/
structure Reaction where
  reactants : List Term
  products : List Term
  reaction_rate : Nat
deriving DecidableEq, Repr

/-- Solution: named species counts (solution/mod.rs), as an association list. -/
structure Solution where
  species_counts : List (Name × Nat)
deriving DecidableEq, Repr

/-- Lookup of the count stored for a name (`HashMap::get`). -/
def Solution.getCount (s : Solution) (n : Name) : Option Nat :=
  (s.species_counts.find? (fun e => e.1 == n)).map (fun e => e.2)

/-- Embeds `entry(key).and_modify(f)`: rewrite the entries holding `n`
with `f`, never inserting a missing key. -/
def Solution.modifyCount (s : Solution) (n : Name) (f : Nat → Nat) : Solution :=
  Solution.mk (s.species_counts.map (fun e => if e.1 = n then (e.1, f e.2) else e))

/-- Embeds `Solution::apply` (solution/mod.rs 22-36): subtract each
reactant coefficient from its named entry, then add each product
coefficient to its named entry; `and_modify` silently skips absent keys. -/
def Solution.apply (s : Solution) (r : Reaction) : Solution :=
  let s1 := r.reactants.foldl
    (fun acc t => acc.modifyCount t.species_name (fun c => wsub c t.coefficient)) s
  r.products.foldl
    (fun acc t => acc.modifyCount t.species_name (fun c => wadd c t.coefficient)) s1

/-- Embeds `Solution::validate` (solution/mod.rs 42-55): false iff some
reactant term whose name is present has coefficient above the stored
count; terms with absent names are skipped. -/
def Solution.validate (s : Solution) (r : Reaction) : Bool :=
  r.reactants.all (fun t =>
    match s.getCount t.species_name with
    | some c => decide (t.coefficient ≤ c)
    | none => true)

/-- Embeds `impl Add for Solution` (solution/mod.rs 76-94): map over the
LEFT operand's entries only, adding the right operand's count for the
same name (zero when absent).  Entries present only in `rhs` never
appear in the result. -/
def Solution.add (a b : Solution) : Solution :=
  Solution.mk (a.species_counts.map
    (fun e => (e.1, wadd e.2 ((b.getCount e.1).getD 0))))

/-- Insertion of a pair into a by-name sorted list (ordering step of
`average_trials`, which sorts the output by `Name` ascending). -/
def insertByName (x : Name × Rat) : List (Name × Rat) → List (Name × Rat)
  | [] => [x]
  | y :: ys => if x.1 ≤ y.1 then x :: y :: ys else y :: insertByName x ys

/-- Sorting a list of (name, average) pairs by name ascending
(`par_sort_by` with the name comparison in `average_trials`). -/
def sortByName (l : List (Name × Rat)) : List (Name × Rat) :=
  l.foldr insertByName []

/-- Embeds `MarleaEngine::average_trials` (lib.rs 368-397).  Rayon's
`reduce(identity, op)` folds every leaf sub-sequence starting from a
fresh `identity()`; because `Solution.add` keeps only the left operand's
keys, every split shape yields the same value as the sequential left
fold from the identity, which is what we write here. -/
def average_trials (sim_states : List Solution) : List (Name × Rat) :=
  let no_states := sim_states.length
  let sum := sim_states.foldl (fun a b => a.add b) (Solution.mk [])
  let avg := sum.species_counts.map
    (fun e => (e.1, (e.2 : Rat) / (no_states : Rat)))
  sortByName avg

/-- Sum of the rates of the possible reactions, written as the source's
accumulating loop (reaction_network/mod.rs 118-125). -/
def sum_possible_reaction_rates (l : List Reaction) : Nat :=
  l.foldl (fun s r => s + r.reaction_rate) 0

/-- Selection loop of `get_next_reaction` (reaction_network/mod.rs
136-143): return the first reaction whose rate exceeds the remaining
index, otherwise subtract the rate and continue. -/
def get_next_reaction_loop : List Reaction → Nat → Option Reaction
  | [], _ => none
  | r :: rest, x =>
    if r.reaction_rate > x then some r
    else get_next_reaction_loop rest (x - r.reaction_rate)

/-- Embeds `find_possible_reactions` (reaction_network/mod.rs 106-115):
the reactions the current solution validates. -/
def find_possible_reactions (reactions : List Reaction) (sln : Solution) : List Reaction :=
  reactions.filter (fun r => sln.validate r)

/-- Set-style insertion used to model `BTreeSet::insert`: a no-op when
the reaction is already present (membership-faithful; the BTreeSet
keeps its elements sorted instead, which no claim observes). -/
def insert_reaction (acc : List Reaction) (r : Reaction) : List Reaction :=
  if r ∈ acc then acc else acc ++ [r]

/-- Inner scan of `gen_null_adjacent_reactions` (reaction_network/mod.rs
84-93): for a product species of a null-source reaction, insert every
reaction listing that species among its reactants. -/
def secondary_scan (rs : List Reaction) (p : Term) (acc : List Reaction) : List Reaction :=
  rs.foldl (fun a sr =>
    sr.reactants.foldl (fun a2 st =>
      if p.species_name = st.species_name then insert_reaction a2 sr else a2) a) acc

/-- Body of the outer loop of `gen_null_adjacent_reactions`
(reaction_network/mod.rs 75-96): a reaction with no reactants is
inserted, and — only when the insertion actually happened — its products
are scanned for consuming reactions. -/
def null_source_scan (rs : List Reaction) (r : Reaction) (acc : List Reaction) : List Reaction :=
  if r.reactants = [] then
    if r ∈ acc then acc
    else r.products.foldl (fun a p => secondary_scan rs p a) (acc ++ [r])
  else acc

/-- Embeds `gen_null_adjacent_reactions` (reaction_network/mod.rs 71-98). -/
def gen_null_adjacent_reactions (rs : List Reaction) : List Reaction :=
  rs.foldl (fun acc r => null_source_scan rs r acc) []

/-- Reaction network state (reaction_network/mod.rs 18-25).  The PRNG is
an abstract stream `rng` of raw draws with cursor `rngIdx`; the seed is
subsumed by the stream. -/
structure ReactionNetwork where
  reactions : List Reaction
  possible_reactions : List Reaction
  null_adjacent_reactions : List Reaction
  solution : Solution
  rng : Nat → Nat
  rngIdx : Nat

/-- Embeds `ReactionNetwork::new` (reaction_network/mod.rs 29-52):
cache the null-adjacent closure and the possible set up front. -/
def ReactionNetwork.new (reactions : List Reaction) (solution : Solution)
    (rng : Nat → Nat) : ReactionNetwork :=
  { reactions := reactions
    solution := solution
    possible_reactions := find_possible_reactions reactions solution
    null_adjacent_reactions := gen_null_adjacent_reactions reactions
    rng := rng
    rngIdx := 0 }

/-- Embeds `react` (reaction_network/mod.rs 129-153): draw a uniform
index below the total rate, select the reaction, apply it and recompute
the possible set.  `none` models the source's panics: `gen_range(0..0)`
on a zero total rate, and `.unwrap()` when the selection loop fails. -/
def ReactionNetwork.react (n : ReactionNetwork) : Option ReactionNetwork :=
  if sum_possible_reaction_rates n.possible_reactions = 0 then none
  else
    match get_next_reaction_loop n.possible_reactions
        (n.rng n.rngIdx % sum_possible_reaction_rates n.possible_reactions) with
    | none => none
    | some r =>
      some { n with
              solution := n.solution.apply r
              possible_reactions := find_possible_reactions n.reactions (n.solution.apply r)
              rngIdx := n.rngIdx + 1 }

/-- Trial stability states (trial/mod.rs 156-161). -/
inductive Stability where
  | Initial
  | Unstable
  | SemiStable (count : Nat)
  | Stable
deriving DecidableEq, Repr

/-- Per-trial state (trial/mod.rs 32-39; the response channel carried by
the Rust struct is outside the embedded core). -/
structure Trial where
  reaction_network : ReactionNetwork
  stability : Stability
  step_counter : Nat
  max_semi_stable_steps : Nat
  id : Nat

/-- Boolean subset test on reaction lists (`BTreeSet::is_subset`). -/
def listSubsetB (a b : List Reaction) : Bool :=
  a.all (fun r => b.contains r)

/-- Embeds `Trial::step` (trial/mod.rs 92-153).  Every non-Stable branch
reacts once and then classifies the resulting possible set; the
SemiStable branches whose possible set stays inside the null-adjacent
set react a second time.  The Stable branch touches nothing but the
step counter. -/
def Trial.step (t : Trial) : Option Trial :=
  match t.stability with
  | Stability.Initial =>
    match t.reaction_network.react with
    | none => none
    | some n =>
      let s :=
        if n.possible_reactions.isEmpty then Stability.Stable
        else if listSubsetB n.possible_reactions n.null_adjacent_reactions then
          Stability.SemiStable 0
        else Stability.Unstable
      some { t with reaction_network := n, stability := s,
                    step_counter := t.step_counter + 1 }
  | Stability.Unstable =>
    match t.reaction_network.react with
    | none => none
    | some n =>
      let s :=
        if n.possible_reactions.isEmpty then Stability.Stable
        else if listSubsetB n.possible_reactions n.null_adjacent_reactions then
          Stability.SemiStable 0
        else Stability.Unstable
      some { t with reaction_network := n, stability := s,
                    step_counter := t.step_counter + 1 }
  | Stability.SemiStable count =>
    match t.reaction_network.react with
    | none => none
    | some n =>
      if n.possible_reactions.isEmpty then
        some { t with reaction_network := n, stability := Stability.Stable,
                      step_counter := t.step_counter + 1 }
      else if listSubsetB n.possible_reactions n.null_adjacent_reactions
              ∧ count < t.max_semi_stable_steps then
        match n.react with
        | none => none
        | some n2 =>
          some { t with reaction_network := n2,
                        stability := Stability.SemiStable (count + 1),
                        step_counter := t.step_counter + 1 }
      else if listSubsetB n.possible_reactions n.null_adjacent_reactions
              ∧ count ≥ t.max_semi_stable_steps then
        match n.react with
        | none => none
        | some n2 =>
          some { t with reaction_network := n2, stability := Stability.Stable,
                        step_counter := t.step_counter + 1 }
      else
        some { t with reaction_network := n, stability := Stability.Unstable,
                      step_counter := t.step_counter + 1 }
  | Stability.Stable =>
    some { t with stability := Stability.Stable,
                  step_counter := t.step_counter + 1 }

/-- Iterated `Trial.step`, propagating the panic case. -/
def stepIter : Nat → Trial → Option Trial
  | 0, t => some t
  | k + 1, t =>
    match t.step with
    | none => none
    | some t2 => stepIter k t2

/-- Observable per-round trial state (spec §3): `Processing` or
`Complete` with a snapshot of the solution. -/
inductive TrialState where
  | Processing (id : Nat) (sln : Solution)
  | Complete (id : Nat) (sln : Solution)
deriving DecidableEq, Repr

/-- Modelled from the spec: the `Trial` revision driven by
`MarleaEngine::run` (lib.rs 243-248) exposes a `step()` returning a
`TrialState`; the `Trial` under src/src/trial/mod.rs is an older
channel-based revision without it, so the wrapper is taken from the
spec's §4.D table — step once, then report `Complete` exactly when the
state is Stable, otherwise `Processing`, with a snapshot solution. -/
def Trial.stepState (t : Trial) : Option (Trial × TrialState) :=
  match t.step with
  | none => none
  | some t2 =>
    match t2.stability with
    | Stability.Stable =>
      some (t2, TrialState.Complete t2.id t2.reaction_network.solution)
    | _ => some (t2, TrialState.Processing t2.id t2.reaction_network.solution)

/-- Result of the engine's `run` (lib.rs 44-57): either the fatal
deadline error or the final averaged vector. -/
inductive RunResult where
  | exceededRuntime
  | final (avg : List (Name × Rat))
deriving DecidableEq

/-- One parallel round: step every processing trial (lib.rs 243-248),
`none` when a trial hits a panic path. -/
def stepAllTrials (ts : List Trial) : Option (List (Trial × TrialState)) :=
  ts.mapM Trial.stepState

/-- Embeds the outer loop of `MarleaEngine::run` (lib.rs 232-336) over
the wall clock abstracted as `nowAt round` (the `Instant::now()` value
observed at the end of each round) and `deadline` (the precomputed
`start + max_runtime` instant).  Each round steps every processing
trial, moves the completed ones, then performs the source's timer check
`if time > Instant::now() { return Err(ExceededRuntime) }` (lib.rs
306-311) — note the direction of the comparison, taken verbatim from the
source.  After the loop the completed solutions are averaged.  `fuel`
bounds the number of rounds; `none` means the bound was hit or a trial
panicked. -/
def runLoop (fuel : Nat) (round : Nat) (processing completed : List Trial)
    (num_trials : Nat) (deadline : Option Nat) (nowAt : Nat → Nat) :
    Option RunResult :=
  match fuel with
  | 0 => none
  | fuel' + 1 =>
    if completed.length < num_trials then
      match stepAllTrials processing with
      | none => none
      | some results =>
        let newProcessing := results.filterMap (fun pr =>
          match pr.2 with
          | TrialState.Processing _ _ => some pr.1
          | TrialState.Complete _ _ => none)
        let newCompleted := results.filterMap (fun pr =>
          match pr.2 with
          | TrialState.Complete _ _ => some pr.1
          | TrialState.Processing _ _ => none)
        let completed2 := completed ++ newCompleted
        match deadline with
        | some d =>
          if d > nowAt round then some RunResult.exceededRuntime
          else runLoop fuel' (round + 1) newProcessing completed2 num_trials deadline nowAt
        | none =>
          runLoop fuel' (round + 1) newProcessing completed2 num_trials deadline nowAt
    else
      some (RunResult.final (average_trials
        (completed.map (fun t => t.reaction_network.solution))))

/-- Concrete reaction consuming one unit of species A (test fixture). -/
def rA : Reaction := Reaction.mk [Term.mk "A" 1] [] 1

/-- Concrete one-reaction network over the solution A ↦ 1, with the
constant-zero draw stream. -/
def netA : ReactionNetwork := ReactionNetwork.new [rA] (Solution.mk [("A", 1)]) (fun _ => 0)

/-- Concrete trial over `netA`: it consumes its single A in round one
and immediately stabilises. -/
def trialA : Trial := Trial.mk netA Stability.Initial 0 99 0

/-- Total coefficient that the terms of `ts` attribute to the species
`n` (a species may occur in several terms of one side of a reaction). -/
def sumCoef (ts : List Term) (n : Name) : Nat :=
  ((ts.filter (fun t => t.species_name == n)).map (fun t => t.coefficient)).sum

/-- Selection written from the spec's words for comparison with the
source loop: maintain a running sum of rates and return the first
reaction whose cumulative rate sum exceeds the drawn index `x`. -/
def spec_next_reaction : List Reaction → Nat → Nat → Option Reaction
  | [], _, _ => none
  | r :: rest, acc, x =>
    if acc + r.reaction_rate > x then some r
    else spec_next_reaction rest (acc + r.reaction_rate) x

/-- The per-step situation of a trial sitting in the semi-stable regime:
its dispatch `react()` succeeds and leaves a non-empty possible set
contained in the null-adjacent set. -/
def semiStep (t : Trial) : Prop :=
  ∃ n, t.reaction_network.react = some n
    ∧ n.possible_reactions ≠ []
    ∧ listSubsetB n.possible_reactions n.null_adjacent_reactions = true

/-- Concrete null-source reaction with no products (background churn). -/
def rNull : Reaction := Reaction.mk [] [] 1

/-- Concrete network whose only reaction is the null-source `rNull`;
its possible set always equals its null-adjacent set. -/
def netNull : ReactionNetwork := ReactionNetwork.new [rNull] (Solution.mk []) (fun _ => 0)

/-- Concrete trial sitting at the first semi-stable state with zero
tolerance. -/
def trialSemi : Trial := Trial.mk netNull (Stability.SemiStable 0) 3 0 0

/-- Concrete trial already stable. -/
def trialStable : Trial := Trial.mk netA Stability.Stable 7 99 0

/-- Helper for the averaging analysis: summing any list of solutions
from the empty identity stays empty, because `Solution.add` keeps only
the left operand's keys. -/
theorem foldl_add_empty (l : List Solution) :
    l.foldl (fun a b => a.add b) (Solution.mk []) = Solution.mk [] := by
  induction l with
  | nil => rfl
  | cons x xs ih =>
    show xs.foldl _ ((Solution.mk []).add x) = Solution.mk []
    have hx : (Solution.mk []).add x = Solution.mk [] := rfl
    rw [hx]
    exact ih

/-- C1: evaluates `run` at a failing input.  A single trial completes in
the first round, and with no deadline the loop returns the final
average; yet with the deadline 100 and a wall clock that never advances
past 0 (so the deadline is never passed), the very same run returns
`ExceededRuntime`, because the source's check at lib.rs 306-311 errors
when `deadline > now` — the comparison is inverted with respect to
"abort once the deadline has passed". -/
theorem run_exceeded_runtime_bug :
    runLoop 4 0 [trialA] [] 1 (some 100) (fun _ => 0) = some RunResult.exceededRuntime
    ∧ runLoop 4 0 [trialA] [] 1 none (fun _ => 0) = some (RunResult.final []) :=
  ⟨rfl, rfl⟩

/-- C2: evaluates `average_trials` at the failing input `[S]` with
S = (x ↦ 2): the claim expects the singleton average `[(x, 2)]`, but the
code returns the empty list — rayon's `reduce` seeds every fold with the
identity `Solution` (no keys), and `Solution.add` keeps only the left
operand's keys, so the sum, and hence the average, is always empty; the
second conjunct shows this happens on every input, contradicting the
crate's own `sim_fibonacci_10` test which asserts a non-empty average. -/
theorem average_trials_identity_bug :
    average_trials [Solution.mk [("x", 2)]] = []
    ∧ ∀ l : List Solution, average_trials l = [] := by
  refine ⟨rfl, fun l => ?_⟩
  show sortByName ((l.foldl (fun a b => a.add b) (Solution.mk [])).species_counts.map _) = []
  rw [foldl_add_empty]
  rfl

/-- C3 counterexample: for a = (x ↦ 1) and b = (y ↦ 2), the pointwise
sum `a.add b` has no entry for y, so its key set is not the union of the
operands' key sets; `b.add a` does map y, so the operation is not
commutative; and adding a onto the empty solution loses x, so the empty
solution is not a (left) identity. -/
theorem solution_add_union_counterexample :
    (Solution.add (Solution.mk [("x", 1)]) (Solution.mk [("y", 2)])).getCount "y" = none
    ∧ (Solution.add (Solution.mk [("y", 2)]) (Solution.mk [("x", 1)])).getCount "y" = some 2
    ∧ (Solution.add (Solution.mk []) (Solution.mk [("x", 1)])).getCount "x" = none :=
  ⟨rfl, rfl, rfl⟩

/-- The u64 modulus is positive. -/
theorem umax_pos : 0 < UMAX := by norm_num [UMAX]

/-- Wrapping addition stays below the modulus. -/
theorem wadd_lt_umax (a b : Nat) : wadd a b < UMAX := Nat.mod_lt _ umax_pos

/-- Wrapping subtraction stays below the modulus. -/
theorem wsub_lt_umax (a b : Nat) : wsub a b < UMAX := Nat.mod_lt _ umax_pos

/-- Wrapping addition is commutative. -/
theorem wadd_comm (a b : Nat) : wadd a b = wadd b a := by
  rw [wadd, wadd, Nat.add_comm]

/-- Wrapping addition is associative. -/
theorem wadd_assoc (a b c : Nat) : wadd (wadd a b) c = wadd a (wadd b c) := by
  simp only [wadd, UMAX]
  omega

/-- Adding zero is the identity on u64-range values. -/
theorem wadd_zero_of_lt {c : Nat} (h : c < UMAX) : wadd c 0 = c := by
  simp only [wadd, Nat.add_zero]
  exact Nat.mod_eq_of_lt h

/-- Subtracting zero is the identity on u64-range values. -/
theorem wsub_zero_of_lt {c : Nat} (h : c < UMAX) : wsub c 0 = c := by
  simp only [wsub, UMAX] at *
  omega

/-- Two wrapping subtractions collapse into one by the sum. -/
theorem wsub_wsub (c a b : Nat) : wsub (wsub c a) b = wsub c (a + b) := by
  simp only [wsub, UMAX]
  omega

/-- Two wrapping additions collapse into one by the sum. -/
theorem wadd_wadd (c a b : Nat) : wadd (wadd c a) b = wadd c (a + b) := by
  simp only [wadd, UMAX]
  omega

/-- A wrapping addition on the right collapses into a plain sum. -/
theorem wadd_wadd_right (x y z : Nat) : wadd x (wadd y z) = wadd x (y + z) := by
  simp only [wadd, UMAX]
  omega

/-- Lookup on a cons cell of a solution. -/
theorem getCount_cons (e : Name × Nat) (l : List (Name × Nat)) (n : Name) :
    (Solution.mk (e :: l)).getCount n
      = if e.1 = n then some e.2 else (Solution.mk l).getCount n := by
  by_cases h : e.1 = n <;> simp [Solution.getCount, List.find?_cons, h]

/-- Lookup through `modifyCount`: the entry for the modified name gets
the function applied, every other name is untouched. -/
theorem getCount_modifyCount (s : Solution) (nm n : Name) (f : Nat → Nat) :
    (s.modifyCount nm f).getCount n
      = if n = nm then (s.getCount n).map f else s.getCount n := by
  obtain ⟨l⟩ := s
  induction l with
  | nil =>
    by_cases h : n = nm <;> simp [Solution.modifyCount, Solution.getCount, h]
  | cons e l ih =>
    have hstep : (Solution.mk (e :: l)).modifyCount nm f
        = Solution.mk ((if e.1 = nm then (e.1, f e.2) else e)
            :: ((Solution.mk l).modifyCount nm f).species_counts) := by
      simp [Solution.modifyCount]
    rw [hstep, getCount_cons, getCount_cons]
    by_cases he : e.1 = nm <;> by_cases hn : e.1 = n <;>
      by_cases hnm : n = nm <;>
      simp_all [getCount_cons]

/-- Lookup through a left fold of `modifyCount` calls: the stored value
is transformed by the fold of the matching terms. -/
theorem getCount_fold_modify (ts : List Term) (g : Term → Nat → Nat)
    (s : Solution) (n : Name) :
    (ts.foldl (fun acc t => acc.modifyCount t.species_name (g t)) s).getCount n
      = (s.getCount n).map
          (fun c => ts.foldl (fun c t => if t.species_name = n then g t c else c) c) := by
  induction ts generalizing s with
  | nil => cases h : s.getCount n <;> simp [h]
  | cons t ts ih =>
    simp only [List.foldl_cons]
    rw [ih, getCount_modifyCount]
    by_cases h : n = t.species_name
    · cases hc : s.getCount n <;> simp [hc, h]
    · have h2 : ¬ t.species_name = n := fun hx => h hx.symm
      cases hc : s.getCount n <;> simp [hc, h, h2]

/-- A guarded fold equals the fold over the filtered list. -/
theorem foldl_if_eq_filter (ts : List Term) (n : Name) (g : Term → Nat → Nat) (c : Nat) :
    ts.foldl (fun c t => if t.species_name = n then g t c else c) c
      = (ts.filter (fun t => t.species_name == n)).foldl (fun c t => g t c) c := by
  induction ts generalizing c with
  | nil => rfl
  | cons t ts ih =>
    by_cases h : t.species_name = n <;> simp [List.filter_cons, h, ih]

/-- A chain of wrapping coefficient subtractions is the wrapping
subtraction of the summed coefficients. -/
theorem foldl_wsub_terms (ts : List Term) (c : Nat) (h : c < UMAX) :
    ts.foldl (fun c t => wsub c t.coefficient) c
      = wsub c (ts.map (fun t => t.coefficient)).sum := by
  induction ts generalizing c with
  | nil => simp [wsub_zero_of_lt h]
  | cons t ts ih =>
    simp only [List.foldl_cons, List.map_cons, List.sum_cons]
    rw [ih _ (wsub_lt_umax _ _), wsub_wsub]

/-- A chain of wrapping coefficient additions is the wrapping addition
of the summed coefficients. -/
theorem foldl_wadd_terms (ts : List Term) (c : Nat) (h : c < UMAX) :
    ts.foldl (fun c t => wadd c t.coefficient) c
      = wadd c (ts.map (fun t => t.coefficient)).sum := by
  induction ts generalizing c with
  | nil => simp [wadd_zero_of_lt h]
  | cons t ts ih =>
    simp only [List.foldl_cons, List.map_cons, List.sum_cons]
    rw [ih _ (wadd_lt_umax _ _), wadd_wadd]

/-- C4: for every name present in the solution, `Solution::apply`
decrements the stored count by the coefficient of every reactant term
naming it and increments it by the coefficient of every product term
naming it (u64 wrapping arithmetic, as in the source's `-=` / `+=`). -/
theorem solution_apply_counts (s : Solution) (r : Reaction) (n : Name) (c : Nat)
    (hc : s.getCount n = some c) (hlt : c < UMAX) :
    (s.apply r).getCount n
      = some (wadd (wsub c (sumCoef r.reactants n)) (sumCoef r.products n)) := by
  unfold Solution.apply
  rw [getCount_fold_modify, getCount_fold_modify, hc]
  simp only [Option.map_some']
  congr 1
  rw [foldl_if_eq_filter, foldl_if_eq_filter]
  rw [foldl_wsub_terms _ _ hlt, foldl_wadd_terms _ _ (wsub_lt_umax _ _)]
  rfl

/-- Witness for C4 at a concrete input: applying A − 2A + 3A to A ↦ 5
stores A ↦ 6. -/
theorem solution_apply_counts_witness :
    (Solution.apply (Solution.mk [("A", 5)])
        (Reaction.mk [Term.mk "A" 2] [Term.mk "A" 3] 1)).getCount "A" = some 6 := by
  have h := solution_apply_counts (Solution.mk [("A", 5)])
    (Reaction.mk [Term.mk "A" 2] [Term.mk "A" 3] 1) "A" 5 rfl (by norm_num [UMAX])
  exact h.trans (by rfl)

/-- Keys are untouched by `modifyCount`. -/
theorem modifyCount_keys (s : Solution) (nm : Name) (f : Nat → Nat) :
    (s.modifyCount nm f).species_counts.map Prod.fst
      = s.species_counts.map Prod.fst := by
  obtain ⟨l⟩ := s
  induction l with
  | nil => rfl
  | cons e l ih =>
    by_cases h : e.1 = nm <;> simp_all [Solution.modifyCount]

/-- Keys are untouched by a fold of `modifyCount` calls. -/
theorem fold_modify_keys (ts : List Term) (g : Term → Nat → Nat) (s : Solution) :
    (ts.foldl (fun acc t => acc.modifyCount t.species_name (g t)) s).species_counts.map Prod.fst
      = s.species_counts.map Prod.fst := by
  induction ts generalizing s with
  | nil => rfl
  | cons t ts ih =>
    rw [List.foldl_cons, ih, modifyCount_keys]

/-- A name is absent exactly when it differs from every key. -/
theorem getCount_eq_none_iff (s : Solution) (n : Name) :
    s.getCount n = none ↔ ∀ k ∈ s.species_counts.map Prod.fst, k ≠ n := by
  simp [Solution.getCount, List.find?_eq_none]

/-- C10: `Solution::apply` never inserts a key — the key list of the
species-count map is unchanged, and a reactant or product term naming an
absent species has no effect at all. -/
theorem solution_apply_frame (s : Solution) (r : Reaction) :
    (s.apply r).species_counts.map Prod.fst = s.species_counts.map Prod.fst
    ∧ ∀ n, s.getCount n = none → (s.apply r).getCount n = none := by
  have hkeys : (s.apply r).species_counts.map Prod.fst
      = s.species_counts.map Prod.fst := by
    unfold Solution.apply
    rw [fold_modify_keys, fold_modify_keys]
  refine ⟨hkeys, fun n hn => ?_⟩
  rw [getCount_eq_none_iff, hkeys, ← getCount_eq_none_iff]
  exact hn

/-- Witness for C10 at a concrete input: applying a reaction over B and
C to a solution holding only A leaves B absent. -/
theorem solution_apply_frame_witness :
    (Solution.apply (Solution.mk [("A", 1)])
        (Reaction.mk [Term.mk "B" 2] [Term.mk "C" 3] 1)).getCount "B" = none :=
  (solution_apply_frame (Solution.mk [("A", 1)])
    (Reaction.mk [Term.mk "B" 2] [Term.mk "C" 3] 1)).2 "B" rfl

/-- C8: `Solution::validate` is true exactly when every reactant term
whose name is present has coefficient at most the stored count; absent
names are treated as satisfied, and an empty reactant list validates. -/
theorem solution_validate_iff (s : Solution) (r : Reaction) :
    (s.validate r = true
      ↔ ∀ t ∈ r.reactants, ∀ c, s.getCount t.species_name = some c → t.coefficient ≤ c)
    ∧ (r.reactants = [] → s.validate r = true) := by
  constructor
  · rw [Solution.validate, List.all_eq_true]
    constructor
    · intro H t ht c hcount
      have hb := H t ht
      rw [hcount] at hb
      exact of_decide_eq_true hb
    · intro H t ht
      cases h : s.getCount t.species_name with
      | none => simp [h]
      | some c =>
        simp only [h]
        exact decide_eq_true (H t ht c h)
  · intro h
    simp [Solution.validate, h]

/-- Witness for C8 at a concrete input: a one-unit demand on A is
validated by the solution A ↦ 1. -/
theorem solution_validate_iff_witness :
    Solution.validate (Solution.mk [("A", 1)]) rA = true := by
  apply (solution_validate_iff (Solution.mk [("A", 1)]) rA).1.mpr
  intro t ht c hcount
  simp only [rA, List.mem_singleton] at ht
  subst ht
  have h2 : some 1 = some c := hcount
  injection h2 with h3
  show 1 ≤ c
  omega

/-- Lookup through `Solution.add`: the left operand's entry, increased
by the right operand's count for the same name (zero when absent). -/
theorem add_getCount (a b : Solution) (n : Name) :
    (a.add b).getCount n
      = (a.getCount n).map (fun c => wadd c ((b.getCount n).getD 0)) := by
  obtain ⟨l⟩ := a
  induction l with
  | nil => rfl
  | cons e l ih =>
    have hstep : (Solution.mk (e :: l)).add b
        = Solution.mk ((e.1, wadd e.2 ((b.getCount e.1).getD 0))
            :: ((Solution.mk l).add b).species_counts) := by
      simp [Solution.add]
    rw [hstep, getCount_cons, getCount_cons]
    by_cases he : e.1 = n
    · subst he
      simp
    · simp [he, ih]

/-- C3 (amended): `Solution.add` is left-biased — the result's key list
is the left operand's, each of the left operand's counts is increased by
the right operand's count for the same name (zero when absent), the
empty solution is a right identity on u64-range counts, and the
operation is commutative and associative on solutions whose key sets
agree. -/
theorem solution_add_left_biased (a b : Solution) :
    ((a.add b).species_counts.map Prod.fst = a.species_counts.map Prod.fst)
    ∧ (∀ n c, a.getCount n = some c →
        (a.add b).getCount n = some (wadd c ((b.getCount n).getD 0)))
    ∧ (∀ n c, a.getCount n = some c → c < UMAX →
        (a.add (Solution.mk [])).getCount n = some c)
    ∧ ((∀ n, (a.getCount n).isSome = (b.getCount n).isSome) →
        ∀ n, (a.add b).getCount n = (b.add a).getCount n)
    ∧ (∀ c3 : Solution,
        (∀ n, (a.getCount n).isSome = (b.getCount n).isSome) →
        (∀ n, (b.getCount n).isSome = (c3.getCount n).isSome) →
        ∀ n, ((a.add b).add c3).getCount n = (a.add (b.add c3)).getCount n) := by
  refine ⟨?_, ?_, ?_, ?_, ?_⟩
  · simp only [Solution.add, List.map_map]
    rfl
  · intro n c hc
    rw [add_getCount, hc]
    rfl
  · intro n c hc hlt
    rw [add_getCount, hc]
    simp [Solution.getCount, wadd_zero_of_lt hlt]
  · intro hiff n
    rw [add_getCount, add_getCount]
    have h := hiff n
    cases ha : a.getCount n <;> cases hb : b.getCount n <;>
      simp_all [wadd_comm]
  · intro c3 hab hbc n
    rw [add_getCount, add_getCount, add_getCount, add_getCount]
    have h1 := hab n
    have h2 := hbc n
    cases ha : a.getCount n <;> cases hb : b.getCount n <;>
      cases hc3 : c3.getCount n <;> simp_all [wadd_wadd, wadd_wadd_right]

/-- Witness for C3 (amended) at a concrete input: (x ↦ 1) plus (x ↦ 4)
stores x ↦ 5. -/
theorem solution_add_left_biased_witness :
    (Solution.add (Solution.mk [("x", 1)]) (Solution.mk [("x", 4)])).getCount "x"
      = some 5 := by
  have h := (solution_add_left_biased (Solution.mk [("x", 1)])
    (Solution.mk [("x", 4)])).2.1 "x" 1 rfl
  exact h.trans (by rfl)

/-- Accumulator form of the rate-sum loop. -/
theorem sum_rates_acc (l : List Reaction) (a : Nat) :
    l.foldl (fun s r => s + r.reaction_rate) a
      = a + l.foldl (fun s r => s + r.reaction_rate) 0 := by
  induction l generalizing a with
  | nil => simp
  | cons r l ih =>
    simp only [List.foldl_cons]
    rw [ih, ih (0 + r.reaction_rate)]
    omega

/-- The rate sum of a cons cell. -/
theorem sum_rates_cons (r : Reaction) (l : List Reaction) :
    sum_possible_reaction_rates (r :: l)
      = r.reaction_rate + sum_possible_reaction_rates l := by
  unfold sum_possible_reaction_rates
  simp only [List.foldl_cons]
  rw [sum_rates_acc]
  omega

/-- A non-empty reaction list with positive rates has a positive total. -/
theorem sum_rates_pos (l : List Reaction) (h1 : ∀ r ∈ l, 1 ≤ r.reaction_rate)
    (h2 : l ≠ []) : 0 < sum_possible_reaction_rates l := by
  cases l with
  | nil => exact absurd rfl h2
  | cons r rest =>
    rw [sum_rates_cons]
    have := h1 r (List.mem_cons_self _ _)
    omega

/-- When the drawn index is below the total rate, the selection loop
succeeds and returns a member of the list. -/
theorem get_next_loop_mem (l : List Reaction) (x : Nat)
    (hx : x < sum_possible_reaction_rates l) :
    ∃ r, get_next_reaction_loop l x = some r ∧ r ∈ l := by
  induction l generalizing x with
  | nil => simp [sum_possible_reaction_rates] at hx
  | cons r rest ih =>
    by_cases h : r.reaction_rate > x
    · exact ⟨r, by simp [get_next_reaction_loop, h], List.mem_cons_self _ _⟩
    · have hx2 : x - r.reaction_rate < sum_possible_reaction_rates rest := by
        rw [sum_rates_cons] at hx
        omega
      obtain ⟨r2, h1, h2⟩ := ih _ hx2
      exact ⟨r2, by simp [get_next_reaction_loop, h, h1], List.mem_cons_of_mem _ h2⟩

/-- The source's subtracting selection loop agrees with the spec's
running-cumulative-sum description. -/
theorem spec_next_agrees (l : List Reaction) (acc x : Nat) (h : acc ≤ x) :
    spec_next_reaction l acc x = get_next_reaction_loop l (x - acc) := by
  induction l generalizing acc with
  | nil => rfl
  | cons r rest ih =>
    by_cases hgt : acc + r.reaction_rate > x
    · have h1 : r.reaction_rate > x - acc := by omega
      simp [spec_next_reaction, get_next_reaction_loop, hgt, h1]
    · have h1 : ¬ (r.reaction_rate > x - acc) := by omega
      have h2 : acc + r.reaction_rate ≤ x := by omega
      simp only [spec_next_reaction, get_next_reaction_loop, if_neg hgt, if_neg h1]
      rw [ih (acc + r.reaction_rate) h2, Nat.sub_sub]

/-- Shape of a successful `react`: the drawn reaction exists, is a
member of the possible set, and the result applies it, refreshes the
possible set and advances the PRNG cursor by one. -/
theorem react_eq_of_pos (n : ReactionNetwork)
    (hW : 0 < sum_possible_reaction_rates n.possible_reactions) :
    ∃ r, r ∈ n.possible_reactions
      ∧ get_next_reaction_loop n.possible_reactions
          (n.rng n.rngIdx % sum_possible_reaction_rates n.possible_reactions) = some r
      ∧ n.react = some { n with
          solution := n.solution.apply r
          possible_reactions := find_possible_reactions n.reactions (n.solution.apply r)
          rngIdx := n.rngIdx + 1 } := by
  have hx : n.rng n.rngIdx % sum_possible_reaction_rates n.possible_reactions
      < sum_possible_reaction_rates n.possible_reactions := Nat.mod_lt _ hW
  obtain ⟨r, h1, h2⟩ := get_next_loop_mem _ _ hx
  refine ⟨r, h2, h1, ?_⟩
  unfold ReactionNetwork.react
  rw [if_neg (by omega), h1]

/-- Whenever `react` succeeds, the reaction set and the null-adjacent
set are untouched, the cursor advances by one, and the possible set is
the refreshed filter of the validating reactions. -/
theorem react_some_shape (m n : ReactionNetwork) (h : m.react = some n) :
    n.reactions = m.reactions
    ∧ n.null_adjacent_reactions = m.null_adjacent_reactions
    ∧ n.rngIdx = m.rngIdx + 1
    ∧ n.possible_reactions = find_possible_reactions m.reactions n.solution := by
  unfold ReactionNetwork.react at h
  by_cases hw : sum_possible_reaction_rates m.possible_reactions = 0
  · rw [if_pos hw] at h
    exact absurd h (by simp)
  · rw [if_neg hw] at h
    cases hm : get_next_reaction_loop m.possible_reactions
        (m.rng m.rngIdx % sum_possible_reaction_rates m.possible_reactions) with
    | none =>
      rw [hm] at h
      exact absurd h (by simp)
    | some r =>
      rw [hm] at h
      injection h with h2
      rw [← h2]
      exact ⟨rfl, rfl, rfl, rfl⟩

/-- Membership in the refreshed possible set is membership in the
reaction set plus validation by the solution. -/
theorem mem_find_possible (rs : List Reaction) (sln : Solution) (r : Reaction) :
    r ∈ find_possible_reactions rs sln ↔ r ∈ rs ∧ sln.validate r = true := by
  simp [find_possible_reactions, List.mem_filter]

/-- C6: with the possible set the filter of the validating reactions and
a positive total rate W, the drawn index is uniform in [0, W), the loop
returns the first reaction (in the set's deterministic order) whose
cumulative rate sum exceeds the index — established by agreement with
the spec-side running-sum selector — and that reaction is a member of
the possible set, validates against the current solution, and is the one
`react` applies. -/
theorem get_next_reaction_weighted (n : ReactionNetwork)
    (hinv : n.possible_reactions = find_possible_reactions n.reactions n.solution)
    (hW : 0 < sum_possible_reaction_rates n.possible_reactions) :
    n.rng n.rngIdx % sum_possible_reaction_rates n.possible_reactions
        < sum_possible_reaction_rates n.possible_reactions
    ∧ ∃ r, get_next_reaction_loop n.possible_reactions
          (n.rng n.rngIdx % sum_possible_reaction_rates n.possible_reactions) = some r
        ∧ spec_next_reaction n.possible_reactions 0
            (n.rng n.rngIdx % sum_possible_reaction_rates n.possible_reactions) = some r
        ∧ r ∈ n.possible_reactions
        ∧ n.solution.validate r = true
        ∧ n.react = some { n with
            solution := n.solution.apply r
            possible_reactions := find_possible_reactions n.reactions (n.solution.apply r)
            rngIdx := n.rngIdx + 1 } := by
  obtain ⟨r, hmem, hloop, hreact⟩ := react_eq_of_pos n hW
  refine ⟨Nat.mod_lt _ hW, r, hloop, ?_, hmem, ?_, hreact⟩
  · rw [spec_next_agrees _ 0 _ (Nat.zero_le _), Nat.sub_zero]
    exact hloop
  · rw [hinv] at hmem
    exact ((mem_find_possible _ _ r).mp hmem).2

/-- Witness for C6 at the concrete network `netA`. -/
theorem get_next_reaction_weighted_witness :
    ∃ r, get_next_reaction_loop netA.possible_reactions
        (netA.rng netA.rngIdx % sum_possible_reaction_rates netA.possible_reactions) = some r
      ∧ r ∈ netA.possible_reactions ∧ netA.solution.validate r = true := by
  obtain ⟨_, r, h1, _, h3, h4, _⟩ :=
    get_next_reaction_weighted netA rfl (by decide)
  exact ⟨r, h1, h3, h4⟩

/-- Membership through the set-style insertion. -/
theorem mem_insert_reaction (acc : List Reaction) (r x : Reaction) :
    x ∈ insert_reaction acc r ↔ x ∈ acc ∨ x = r := by
  unfold insert_reaction
  by_cases h : r ∈ acc
  · rw [if_pos h]
    constructor
    · exact Or.inl
    · rintro (hx | hx)
      · exact hx
      · exact hx ▸ h
  · rw [if_neg h]
    simp [List.mem_append]

/-- Membership through the scan of one secondary reaction's reactants. -/
theorem mem_term_scan (sts : List Term) (p : Term) (sr : Reaction)
    (a : List Reaction) (x : Reaction) :
    x ∈ sts.foldl (fun a2 st =>
        if p.species_name = st.species_name then insert_reaction a2 sr else a2) a
      ↔ x ∈ a ∨ (x = sr ∧ ∃ st ∈ sts, p.species_name = st.species_name) := by
  induction sts generalizing a with
  | nil => simp
  | cons st sts ih =>
    simp only [List.foldl_cons]
    by_cases h : p.species_name = st.species_name
    · rw [if_pos h, ih, mem_insert_reaction]
      constructor
      · rintro ((hx | hx) | ⟨hx, st2, hst2, hsp⟩)
        · exact Or.inl hx
        · exact Or.inr ⟨hx, st, List.mem_cons_self _ _, h⟩
        · exact Or.inr ⟨hx, st2, List.mem_cons_of_mem _ hst2, hsp⟩
      · rintro (hx | ⟨hx, st2, hst2, hsp⟩)
        · exact Or.inl (Or.inl hx)
        · exact Or.inl (Or.inr hx)
    · rw [if_neg h, ih]
      constructor
      · rintro (hx | ⟨hx, st2, hst2, hsp⟩)
        · exact Or.inl hx
        · exact Or.inr ⟨hx, st2, List.mem_cons_of_mem _ hst2, hsp⟩
      · rintro (hx | ⟨hx, st2, hst2, hsp⟩)
        · exact Or.inl hx
        · rcases List.mem_cons.mp hst2 with rfl | hst3
          · exact absurd hsp h
          · exact Or.inr ⟨hx, st2, hst3, hsp⟩

/-- Membership through the scan of all reactions for one product
species. -/
theorem mem_secondary_scan (rs : List Reaction) (p : Term)
    (a : List Reaction) (x : Reaction) :
    x ∈ secondary_scan rs p a
      ↔ x ∈ a ∨ (x ∈ rs ∧ ∃ st ∈ x.reactants, p.species_name = st.species_name) := by
  induction rs generalizing a with
  | nil => simp [secondary_scan]
  | cons sr rs ih =>
    simp only [secondary_scan, List.foldl_cons] at *
    rw [ih, mem_term_scan]
    constructor
    · rintro ((hx | ⟨rfl, hst⟩) | ⟨hxrs, hst⟩)
      · exact Or.inl hx
      · exact Or.inr ⟨List.mem_cons_self _ _, hst⟩
      · exact Or.inr ⟨List.mem_cons_of_mem _ hxrs, hst⟩
    · rintro (hx | ⟨hmem, hst⟩)
      · exact Or.inl (Or.inl hx)
      · rcases List.mem_cons.mp hmem with rfl | hxrs
        · exact Or.inl (Or.inr ⟨rfl, hst⟩)
        · exact Or.inr ⟨hxrs, hst⟩

/-- Membership through the scan of a null-source reaction's products. -/
theorem mem_product_scan (ps : List Term) (rs : List Reaction)
    (a : List Reaction) (x : Reaction) :
    x ∈ ps.foldl (fun a p => secondary_scan rs p a) a
      ↔ x ∈ a ∨ (x ∈ rs ∧ ∃ p ∈ ps, ∃ st ∈ x.reactants,
          p.species_name = st.species_name) := by
  induction ps generalizing a with
  | nil => simp
  | cons p ps ih =>
    simp only [List.foldl_cons]
    rw [ih, mem_secondary_scan]
    constructor
    · rintro ((hx | ⟨hxrs, hst⟩) | ⟨hxrs, p2, hp2, hst⟩)
      · exact Or.inl hx
      · exact Or.inr ⟨hxrs, p, List.mem_cons_self _ _, hst⟩
      · exact Or.inr ⟨hxrs, p2, List.mem_cons_of_mem _ hp2, hst⟩
    · rintro (hx | ⟨hxrs, p2, hp2, hst⟩)
      · exact Or.inl (Or.inl hx)
      · rcases List.mem_cons.mp hp2 with rfl | hp3
        · exact Or.inl (Or.inr ⟨hxrs, hst⟩)
        · exact Or.inr ⟨hxrs, p2, hp3, hst⟩

/-- Membership through the outer fold of the null-adjacent computation,
carrying the invariant that no still-unprocessed null-source reaction
already sits in the accumulator (which holds because every inserted
secondary reaction has a non-empty reactant list). -/
theorem mem_null_fold (rs : List Reaction) (rest : List Reaction)
    (acc : List Reaction) (x : Reaction)
    (hnd : rest.Nodup)
    (hinv : ∀ y ∈ rest, y.reactants = [] → y ∉ acc) :
    x ∈ rest.foldl (fun acc r => null_source_scan rs r acc) acc
      ↔ x ∈ acc ∨ ∃ r2 ∈ rest, r2.reactants = []
          ∧ (x = r2 ∨ (x ∈ rs ∧ ∃ p ∈ r2.products, ∃ st ∈ x.reactants,
              p.species_name = st.species_name)) := by
  induction rest generalizing acc with
  | nil => simp
  | cons r rest ih =>
    simp only [List.foldl_cons]
    have hnd2 : rest.Nodup := hnd.of_cons
    by_cases hr : r.reactants = []
    · have hnotin : r ∉ acc := hinv r (List.mem_cons_self _ _) hr
      have hscan : null_source_scan rs r acc
          = r.products.foldl (fun a p => secondary_scan rs p a) (acc ++ [r]) := by
        unfold null_source_scan
        rw [if_pos hr, if_neg hnotin]
      rw [hscan]
      have hinv2 : ∀ y ∈ rest, y.reactants = [] →
          y ∉ r.products.foldl (fun a p => secondary_scan rs p a) (acc ++ [r]) := by
        intro y hy hynull hmem
        rcases (mem_product_scan _ _ _ _).mp hmem with hy2 | ⟨_, p, _, st, hst, _⟩
        · rcases List.mem_append.mp hy2 with hy3 | hy3
          · exact hinv y (List.mem_cons_of_mem _ hy) hynull hy3
          · have : y = r := List.mem_singleton.mp hy3
            exact (List.nodup_cons.mp hnd).1 (this ▸ hy)
        · rw [hynull] at hst
          exact List.not_mem_nil st hst
      rw [ih _ hnd2 hinv2, mem_product_scan]
      constructor
      · rintro ((hx | ⟨hxrs, hmatch⟩) | ⟨r2, hr2, hr2null, hcase⟩)
        · rcases List.mem_append.mp hx with hx2 | hx2
          · exact Or.inl hx2
          · exact Or.inr ⟨r, List.mem_cons_self _ _, hr,
              Or.inl (List.mem_singleton.mp hx2)⟩
        · exact Or.inr ⟨r, List.mem_cons_self _ _, hr, Or.inr ⟨hxrs, hmatch⟩⟩
        · exact Or.inr ⟨r2, List.mem_cons_of_mem _ hr2, hr2null, hcase⟩
      · rintro (hx | ⟨r2, hr2, hr2null, hcase⟩)
        · exact Or.inl (Or.inl (List.mem_append.mpr (Or.inl hx)))
        · rcases List.mem_cons.mp hr2 with rfl | hr3
          · rcases hcase with rfl | ⟨hxrs, hmatch⟩
            · exact Or.inl (Or.inl (List.mem_append.mpr (Or.inr (List.mem_singleton.mpr rfl))))
            · exact Or.inl (Or.inr ⟨hxrs, hmatch⟩)
          · exact Or.inr ⟨r2, hr3, hr2null, hcase⟩
    · have hscan : null_source_scan rs r acc = acc := by
        unfold null_source_scan
        rw [if_neg hr]
      rw [hscan]
      have hinv2 : ∀ y ∈ rest, y.reactants = [] → y ∉ acc :=
        fun y hy => hinv y (List.mem_cons_of_mem _ hy)
      rw [ih _ hnd2 hinv2]
      constructor
      · rintro (hx | ⟨r2, hr2, hr2null, hcase⟩)
        · exact Or.inl hx
        · exact Or.inr ⟨r2, List.mem_cons_of_mem _ hr2, hr2null, hcase⟩
      · rintro (hx | ⟨r2, hr2, hr2null, hcase⟩)
        · exact Or.inl hx
        · rcases List.mem_cons.mp hr2 with rfl | hr3
          · exact absurd hr2null hr
          · exact Or.inr ⟨r2, hr3, hr2null, hcase⟩

/-- C7: for a duplicate-free reaction set (as a `HashSet` delivers), a
reaction is in the cached null-adjacent set of a network built by
`ReactionNetwork::new` exactly when it has no reactants, or some
reaction with no reactants has a product species occurring among its
reactants — a single-hop closure; and `react` never recomputes the
cached set. -/
theorem null_adjacent_closure (rs : List Reaction) (sln : Solution)
    (rng : Nat → Nat) (hnd : rs.Nodup) :
    (∀ x, x ∈ (ReactionNetwork.new rs sln rng).null_adjacent_reactions
      ↔ x ∈ rs ∧ (x.reactants = []
          ∨ ∃ r2 ∈ rs, r2.reactants = [] ∧ ∃ p ∈ r2.products, ∃ st ∈ x.reactants,
              p.species_name = st.species_name))
    ∧ (∀ m m2 : ReactionNetwork, m.react = some m2 →
        m2.null_adjacent_reactions = m.null_adjacent_reactions) := by
  constructor
  · intro x
    have hbase : (ReactionNetwork.new rs sln rng).null_adjacent_reactions
        = gen_null_adjacent_reactions rs := rfl
    rw [hbase]
    unfold gen_null_adjacent_reactions
    rw [mem_null_fold rs rs [] x hnd (by simp)]
    simp only [List.not_mem_nil, false_or]
    constructor
    · rintro ⟨r2, hr2, hr2null, rfl | ⟨hxrs, p, hp, st, hst, hsp⟩⟩
      · exact ⟨hr2, Or.inl hr2null⟩
      · exact ⟨hxrs, Or.inr ⟨r2, hr2, hr2null, p, hp, st, hst, hsp⟩⟩
    · rintro ⟨hxrs, hx | ⟨r2, hr2, hr2null, p, hp, st, hst, hsp⟩⟩
      · exact ⟨x, hxrs, hx, Or.inl rfl⟩
      · exact ⟨r2, hr2, hr2null, Or.inr ⟨hxrs, p, hp, st, hst, hsp⟩⟩
  · intro m m2 h
    exact (react_some_shape m m2 h).2.1

/-- Witness for C7 at a concrete input: in the two-reaction network
with the null-source reaction and the A-consuming reaction, the
null-source reaction itself is null-adjacent. -/
theorem null_adjacent_closure_witness :
    rNull ∈ (ReactionNetwork.new [rNull, rA] (Solution.mk []) (fun _ => 0)).null_adjacent_reactions := by
  apply ((null_adjacent_closure [rNull, rA] (Solution.mk []) (fun _ => 0)
    (by decide)).1 rNull).mpr
  exact ⟨List.mem_cons_self _ _, Or.inl rfl⟩

/-- Unfolding step iteration from the right. -/
theorem stepIter_succ (k : Nat) (t : Trial) :
    stepIter (k + 1) t = (stepIter k t).bind Trial.step := by
  induction k generalizing t with
  | zero =>
    cases h : t.step <;> simp [stepIter, h]
  | succ k ih =>
    cases h : t.step with
    | none =>
      show (match t.step with | none => none | some t2 => stepIter (k + 1) t2) = _
      rw [h]
      show (none : Option Trial)
        = ((match t.step with | none => none | some t2 => stepIter k t2).bind Trial.step)
      rw [h]
      rfl
    | some t2 =>
      show (match t.step with | none => none | some t2 => stepIter (k + 1) t2) = _
      rw [h]
      show stepIter (k + 1) t2
        = ((match t.step with | none => none | some t2 => stepIter k t2).bind Trial.step)
      rw [h, ih]

/-- C9: a stable trial stays stable forever — every further `step` only
bumps the step counter, leaving the network (and with it the solution
and the PRNG cursor, hence performing no `react()`) untouched. -/
theorem trial_stable_absorbing (t : Trial) (h : t.stability = Stability.Stable)
    (k : Nat) :
    stepIter k t = some { t with step_counter := t.step_counter + k } := by
  obtain ⟨net, st, c, m, i⟩ := t
  have h2 : st = Stability.Stable := h
  subst h2
  induction k generalizing c with
  | zero => simp [stepIter]
  | succ k ih =>
    have hstep : Trial.step (Trial.mk net Stability.Stable c m i)
        = some (Trial.mk net Stability.Stable (c + 1) m i) := rfl
    show (match Trial.step (Trial.mk net Stability.Stable c m i) with
      | none => none | some t2 => stepIter k t2)
      = some (Trial.mk net Stability.Stable (c + (k + 1)) m i)
    rw [hstep]
    show stepIter k (Trial.mk net Stability.Stable (c + 1) m i)
      = some (Trial.mk net Stability.Stable (c + (k + 1)) m i)
    have harith : c + (k + 1) = c + 1 + k := by omega
    rw [harith]
    exact ih (c + 1) rfl

/-- Witness for C9 at a concrete stable trial. -/
theorem trial_stable_absorbing_witness :
    stepIter 3 trialStable
      = some { trialStable with step_counter := trialStable.step_counter + 3 } :=
  trial_stable_absorbing trialStable rfl 3

/-- Trajectory of a trial that enters the semi-stable regime and never
leaves it: after k ≤ max + 1 steps it sits at `SemiStable k` (or at
`Stable` once k = max + 1), each step having consumed exactly two PRNG
draws — the dispatch `react()` plus the branch's additional `react()` —
with the reaction set carried unchanged. -/
theorem semi_chain (t0 : Trial)
    (hrate : ∀ r ∈ t0.reaction_network.reactions, 1 ≤ r.reaction_rate)
    (h0 : t0.stability = Stability.SemiStable 0)
    (hstep : ∀ j, j ≤ t0.max_semi_stable_steps →
      ∀ tj, stepIter j t0 = some tj → semiStep tj) :
    ∀ k, k ≤ t0.max_semi_stable_steps + 1 →
      ∃ tk, stepIter k t0 = some tk
        ∧ tk.stability = (if k ≤ t0.max_semi_stable_steps
            then Stability.SemiStable k else Stability.Stable)
        ∧ tk.reaction_network.rngIdx = t0.reaction_network.rngIdx + 2 * k
        ∧ tk.reaction_network.reactions = t0.reaction_network.reactions
        ∧ tk.max_semi_stable_steps = t0.max_semi_stable_steps := by
  intro k
  induction k with
  | zero =>
    intro _
    refine ⟨t0, rfl, ?_, by omega, rfl, rfl⟩
    rw [if_pos (Nat.zero_le _)]
    exact h0
  | succ k ih =>
    intro hk1
    have hk : k ≤ t0.max_semi_stable_steps := by omega
    obtain ⟨tk, hiter, hstab, hidx, hreac, hmax⟩ := ih (by omega)
    rw [if_pos hk] at hstab
    obtain ⟨n, hreact, hne, hsub⟩ := hstep k hk tk hiter
    obtain ⟨hnr, hnn, hni, hnp⟩ := react_some_shape _ _ hreact
    have hrate2 : ∀ r ∈ n.possible_reactions, 1 ≤ r.reaction_rate := by
      intro r hr
      rw [hnp] at hr
      have hr2 := ((mem_find_possible _ _ r).mp hr).1
      rw [hreac] at hr2
      exact hrate r hr2
    have hpos : 0 < sum_possible_reaction_rates n.possible_reactions :=
      sum_rates_pos _ hrate2 hne
    obtain ⟨r2, _, _, hreact2⟩ := react_eq_of_pos n hpos
    have hnotempty : ¬ (n.possible_reactions.isEmpty = true) := by
      simp only [List.isEmpty_iff]
      exact hne
    by_cases hklt : k < t0.max_semi_stable_steps
    · have hstepk : Trial.step tk = some { tk with
          reaction_network := { n with
            solution := n.solution.apply r2
            possible_reactions := find_possible_reactions n.reactions (n.solution.apply r2)
            rngIdx := n.rngIdx + 1 }
          stability := Stability.SemiStable (k + 1)
          step_counter := tk.step_counter + 1 } := by
        show (match tk.stability with
          | Stability.Initial => _ | Stability.Unstable => _
          | Stability.SemiStable _ => _ | Stability.Stable => _) = _
        rw [hstab]
        show (match tk.reaction_network.react with
          | none => none | some n => _) = _
        rw [hreact]
        show (if n.possible_reactions.isEmpty then _ else _) = _
        rw [if_neg hnotempty, if_pos ⟨hsub, hmax ▸ hklt⟩, hreact2]
      refine ⟨{ tk with
          reaction_network := { n with
            solution := n.solution.apply r2
            possible_reactions := find_possible_reactions n.reactions (n.solution.apply r2)
            rngIdx := n.rngIdx + 1 }
          stability := Stability.SemiStable (k + 1)
          step_counter := tk.step_counter + 1 }, ?_, ?_, ?_, ?_, ?_⟩
      · rw [stepIter_succ, hiter]
        exact hstepk
      · rw [if_pos (show k + 1 ≤ t0.max_semi_stable_steps by omega)]
      · show n.rngIdx + 1 = _
        omega
      · show n.reactions = _
        rw [hnr]
        exact hreac
      · exact hmax
    · have hkeq : k = t0.max_semi_stable_steps := by omega
      have hstepk : Trial.step tk = some { tk with
          reaction_network := { n with
            solution := n.solution.apply r2
            possible_reactions := find_possible_reactions n.reactions (n.solution.apply r2)
            rngIdx := n.rngIdx + 1 }
          stability := Stability.Stable
          step_counter := tk.step_counter + 1 } := by
        show (match tk.stability with
          | Stability.Initial => _ | Stability.Unstable => _
          | Stability.SemiStable _ => _ | Stability.Stable => _) = _
        rw [hstab]
        show (match tk.reaction_network.react with
          | none => none | some n => _) = _
        rw [hreact]
        show (if n.possible_reactions.isEmpty then _ else _) = _
        rw [if_neg hnotempty, if_neg (fun hand => hklt (hmax ▸ hand.2)),
          if_pos ⟨hsub, by omega⟩, hreact2]
      refine ⟨{ tk with
          reaction_network := { n with
            solution := n.solution.apply r2
            possible_reactions := find_possible_reactions n.reactions (n.solution.apply r2)
            rngIdx := n.rngIdx + 1 }
          stability := Stability.Stable
          step_counter := tk.step_counter + 1 }, ?_, ?_, ?_, ?_, ?_⟩
      · rw [stepIter_succ, hiter]
        exact hstepk
      · rw [if_neg (show ¬ k + 1 ≤ t0.max_semi_stable_steps by omega)]
      · show n.rngIdx + 1 = _
        omega
      · show n.reactions = _
        rw [hnr]
        exact hreac
      · exact hmax

/-- C5: a trial that first enters `SemiStable` (state `SemiStable 0`)
and on every subsequent step keeps a non-empty possible set inside the
null-adjacent set reaches `Stable` in exactly `max_semi_stable_steps +
1` steps: strictly before that bound it is still at `SemiStable j`, and
each of those steps consumes two PRNG draws — the dispatch `react()`
plus the branch's additional `react()`.  Positive rates (as the data
model requires) keep every draw well defined. -/
theorem trial_semistable_tolerance (t0 : Trial)
    (hrate : ∀ r ∈ t0.reaction_network.reactions, 1 ≤ r.reaction_rate)
    (h0 : t0.stability = Stability.SemiStable 0)
    (hstep : ∀ j, j ≤ t0.max_semi_stable_steps →
      ∀ tj, stepIter j t0 = some tj → semiStep tj) :
    (∀ j, j ≤ t0.max_semi_stable_steps →
      ∃ tj tj1, stepIter j t0 = some tj ∧ tj.stability = Stability.SemiStable j
        ∧ stepIter (j + 1) t0 = some tj1
        ∧ tj1.reaction_network.rngIdx = tj.reaction_network.rngIdx + 2)
    ∧ ∃ tf, stepIter (t0.max_semi_stable_steps + 1) t0 = some tf
        ∧ tf.stability = Stability.Stable := by
  have H := semi_chain t0 hrate h0 hstep
  constructor
  · intro j hj
    obtain ⟨tj, h1, h2, h3, _, _⟩ := H j (by omega)
    obtain ⟨tj1, g1, _, g3, _, _⟩ := H (j + 1) (by omega)
    rw [if_pos hj] at h2
    exact ⟨tj, tj1, h1, h2, g1, by omega⟩
  · obtain ⟨tf, h1, h2, _⟩ := H (t0.max_semi_stable_steps + 1) (Nat.le_refl _)
    rw [if_neg (by omega)] at h2
    exact ⟨tf, h1, h2⟩

/-- Witness for C5 at the concrete zero-tolerance trial `trialSemi`:
one step after entering the semi-stable regime it is stable. -/
theorem trial_semistable_tolerance_witness :
    ∃ tf, stepIter 1 trialSemi = some tf ∧ tf.stability = Stability.Stable := by
  have H := trial_semistable_tolerance trialSemi (by decide) rfl ?hstep
  case hstep =>
    intro j hj tj htj
    have hj0 : j = 0 := Nat.le_zero.mp hj
    subst hj0
    have htj2 : tj = trialSemi := by
      have h1 : some trialSemi = some tj := htj
      injection h1 with h2
      exact h2.symm
    subst htj2
    exact ⟨_, rfl, by decide, by decide⟩
  exact H.2

end Marlea
